import Mathlib

/-!
# Verification of the async resource manager (`src/async_resource_manager.rs`)

Shallow embedding of the resource cache from `dss-now-playing-public`:

* `AsyncResourceManager` state: `cache` (completed assets keyed by URL),
  `font_cache` (rendered text keyed by string), `in_progress` (in-flight
  downloads keyed by URL).  Rust `HashMap`s are embedded as association lists
  with pointwise `lookupA` / `insertA` / `eraseA` operations; distinctness of
  keys (which a `HashMap` guarantees) is carried as an explicit hypothesis
  where it matters.
* Textures (`Rc<Texture>`) are embedded as natural-number identifiers;
  cloning an `Rc` is value equality of the identifier, and fresh texture
  creation by the `TextureCreator` is modelled by a `next_id` counter.
* The `oneshot` reply channel held by each in-flight entry is embedded by its
  observable `try_recv` outcome: `empty` (no reply yet), `ready v` (a reply
  was sent), `closed` (sender dropped without replying).
* `tokio::sync::mpsc::Sender::try_send` is embedded by its outcome
  (`ok` / `full` / `closed`), supplied by the environment; the `panic!` on a
  closed queue is embedded as `Except.error`.
* `download_loop` is embedded as a small-step transition relation over a
  scheduler state (pending queue, spawned tasks, event trace), with one
  `start`/`finish` event pair per handled request.
-/

namespace NowPlaying

abbrev Key := String

/-- Raw payload bytes of a download (`bytes::Bytes`). -/
abbrev Bytes := List Nat

/-- A texture identifier, standing for one `Rc<Texture>` allocation. -/
abbrev Texture := Nat

/-- `DownloadResponse { bytes: Bytes }` from the source. -/
structure DownloadResponse where
  bytes : Bytes
  deriving DecidableEq, Repr

/-- Observable state of a `oneshot::Receiver<Option<DownloadResponse>>` at
the moment `try_recv` is called: no message yet (`TryRecvError::Empty`),
a message present (`Ok val`), or sender dropped (`TryRecvError::Closed`). -/
inductive ChanState where
  | empty : ChanState
  | ready : Option DownloadResponse → ChanState
  | closed : ChanState
  deriving DecidableEq, Repr

/-- Outcome the bounded mpsc queue gives to a `try_send` attempt:
accepted, `TrySendError::Full`, or `TrySendError::Closed`. -/
inductive SendOutcome where
  | ok : SendOutcome
  | full : SendOutcome
  | closed : SendOutcome
  deriving DecidableEq, Repr

/-- Association-list lookup, the embedding of `HashMap::get` /
`HashMap::contains_key`. -/
def lookupA (k : Key) : List (Key × α) → Option α
  | [] => none
  | (k', v) :: rest => if k' = k then some v else lookupA k rest

/-- Association-list insert that replaces an existing binding, the embedding
of `HashMap::insert`. -/
def insertA (k : Key) (v : α) : List (Key × α) → List (Key × α)
  | [] => [(k, v)]
  | (k', v') :: rest =>
      if k' = k then (k, v) :: rest else (k', v') :: insertA k v rest

/-- Association-list removal of a key, the embedding of `HashMap::remove`. -/
def eraseA (k : Key) (l : List (Key × α)) : List (Key × α) :=
  l.filter (fun p => p.1 ≠ k)

/-- The mutable state of `AsyncResourceManager`.  `next_id` models the
`TextureCreator`: each texture it creates is a fresh identifier. -/
structure ARM where
  cache : List (Key × Texture)
  font_cache : List (Key × (Texture × (Nat × Nat)))
  in_progress : List (Key × ChanState)
  next_id : Nat
  deriving DecidableEq, Repr

/-- Result of one `get_image_from_url` call: the returned
`Option<Rc<Texture>>`, the manager state afterwards, and the list of URLs
for which a `DownloadRequest` was accepted by the queue (empty or a
singleton).  `Except.error` embeds the
`panic!("Downloader closed unexpectedly")`. -/
def get_image_from_url (env : SendOutcome) (s : ARM) (url : Key) :
    Except Unit (Option Texture × ARM × List Key) :=
  match lookupA url s.cache with
  | some t =>
      -- Cloning an Rc only copies the handle: the cached identifier is
      -- returned as-is.
      .ok (some t, s, [])
  | none =>
      if (lookupA url s.in_progress).isSome then
        .ok (none, s, [])
      else
        match env with
        | .ok =>
            .ok (none,
                 { s with in_progress := insertA url .empty s.in_progress },
                 [url])
        | .full => .ok (none, s, [])
        | .closed => .error ()

/-- What `texture_creator.load_texture_bytes` yields on a payload inside
`process_pending`: `none` embeds the `Err` (decode failure) case. -/
abbrev Decode := Bytes → Option Texture

/-- One iteration of the `for (key, rx) in self.in_progress.iter_mut()` loop
of `process_pending`, acting on the accumulated `remove_set` and cache. -/
def pendingStep (decode : Decode) (acc : List Key × List (Key × Texture))
    (p : Key × ChanState) : List Key × List (Key × Texture) :=
  match p.2 with
  | .ready val =>
      let acc1 := (acc.1 ++ [p.1], acc.2)
      match val with
      | some resp =>
          match decode resp.bytes with
          | some t => (acc1.1, insertA p.1 t acc1.2)
          | none => acc1
      | none => acc1
  | .closed => (acc.1 ++ [p.1], acc.2)
  | .empty => acc

/-- `process_pending`: inspect every in-flight reply channel with
`try_recv`, cache decodable successful payloads, collect every resolved key
in `remove_set`, and only after the whole loop remove those keys from
`in_progress`. -/
def process_pending (decode : Decode) (s : ARM) : ARM :=
  let res := s.in_progress.foldl (pendingStep decode) ([], s.cache)
  { s with
      cache := res.2,
      in_progress := res.1.foldl (fun ip k => eraseA k ip) s.in_progress }

/-- `get_text_texture_and_size`, parameterised by the font measurement
`size_of`.  Rendering a string creates a fresh texture (`next_id`). -/
def get_text_texture_and_size (size_of : Key → Nat × Nat) (s : ARM)
    (text : Key) : (Texture × (Nat × Nat)) × ARM :=
  match lookupA text s.font_cache with
  | some pair => (pair, s)
  | none =>
      let texture := s.next_id
      let font_size := size_of text
      ((texture, font_size),
       { s with
           font_cache := insertA text (texture, font_size) s.font_cache,
           next_id := s.next_id + 1 })

/-! ## The download loop (`download_loop` / `handle_request`)

`download_loop` is an async loop: it receives `DownloadRequest`s from the
queue and, in bounded mode, awaits `handle_request` inline before the next
`recv`; in unbounded mode it spawns `handle_request` as a concurrent task
and immediately receives again.  We embed this as a small-step transition
system.  Handling one request contributes two observable events:
`Ev.start u` when its fetch begins and `Ev.finish u` when its reply has been
sent (the fetch, the optional artificial delay and the reply all lie between
the two events). -/

/-- Observable events of the download loop's workers. -/
inductive Ev where
  | start : Key → Ev
  | finish : Key → Ev
  deriving DecidableEq, Repr

/-- Scheduler state of the download loop: the requests still in the queue,
the handler tasks that exist but have not finished (`Bool` records whether
the task's fetch has started), and the event trace so far. -/
structure DLState where
  queue : List Key
  tasks : List (Key × Bool)
  trace : List Ev
  deriving DecidableEq, Repr

/-- One step of the download loop in the given mode (`bounded : Bool`).
`recv` dequeues the next request and creates its handler task; in bounded
mode this is only possible when no handler task is alive, because the loop
body awaits `handle_request` to completion before looping.  `start` and
`finish` are the two phases of a handler task running. -/
inductive DLStep (bounded : Bool) : DLState → DLState → Prop where
  | recv (u : Key) (rest : List Key) (tasks : List (Key × Bool))
      (tr : List Ev) (h : bounded = true → tasks = []) :
      DLStep bounded ⟨u :: rest, tasks, tr⟩
        ⟨rest, tasks ++ [(u, false)], tr⟩
  | start (q : List Key) (pre post : List (Key × Bool)) (u : Key)
      (tr : List Ev) :
      DLStep bounded ⟨q, pre ++ (u, false) :: post, tr⟩
        ⟨q, pre ++ (u, true) :: post, tr ++ [.start u]⟩
  | finish (q : List Key) (pre post : List (Key × Bool)) (u : Key)
      (tr : List Ev) :
      DLStep bounded ⟨q, pre ++ (u, true) :: post, tr⟩
        ⟨q, pre ++ post, tr ++ [.finish u]⟩

/-- Reachability in the download loop: zero or more steps. -/
abbrev DLReach (bounded : Bool) : DLState → DLState → Prop :=
  Relation.ReflTransGen (DLStep bounded)

/-- The trace produced by handling a request sequence strictly serially. -/
def fullTrace (l : List Key) : List Ev :=
  l.flatMap (fun u => [.start u, .finish u])

/-! ## Derived notions used by the statements -/

/-- Whether a `try_recv` on a channel in this state resolves the entry
(anything except `Empty` puts the key into `remove_set`). -/
def resolvedB : ChanState → Bool
  | .empty => false
  | .ready _ => true
  | .closed => true

/-- The texture `process_pending` caches for an entry in this channel
state, if any: only a present successful reply whose payload decodes. -/
def decodedVal (d : Decode) : ChanState → Option Texture
  | .ready (some resp) => d resp.bytes
  | .ready none => none
  | .empty => none
  | .closed => none

/-- The `remove_set` accumulated by the `process_pending` loop. -/
def removeList (l : List (Key × ChanState)) : List Key :=
  (l.filter (fun p => resolvedB p.2)).map Prod.fst

/-- The cache produced by the `process_pending` loop. -/
def cacheFold (d : Decode) (l : List (Key × ChanState))
    (c : List (Key × Texture)) : List (Key × Texture) :=
  l.foldl
    (fun c p =>
      match decodedVal d p.2 with
      | some t => insertA p.1 t c
      | none => c) c

/-- The invariant of claim C1: no key is both a completed asset and
in flight. -/
def disjointKeys (s : ARM) : Prop :=
  ∀ k : Key, lookupA k s.cache = none ∨ lookupA k s.in_progress = none

/-- The observable outcome of a non-panicking `get_image_from_url` call
(returned option, state afterwards, accepted requests); a panicking call is
reported as if it had returned nothing and changed nothing. -/
def getOut (env : SendOutcome) (s : ARM) (url : Key) :
    Option Texture × ARM × List Key :=
  match get_image_from_url env s url with
  | .ok r => r
  | .error _ => (none, s, [])

/-- Inductive invariant of the bounded download loop started on queue
`reqs`: some prefix `done` of the queue has been fully handled (its events
serialized in the trace), and at most one request is currently being
handled. -/
def BoundedInv (reqs : List Key) (s : DLState) : Prop :=
  ∃ done rest, reqs = done ++ rest ∧
    ((s.queue = rest ∧ s.tasks = [] ∧ s.trace = fullTrace done) ∨
     (∃ u rest', rest = u :: rest' ∧ s.queue = rest' ∧
        ((s.tasks = [(u, false)] ∧ s.trace = fullTrace done) ∨
         (s.tasks = [(u, true)] ∧
            s.trace = fullTrace done ++ [.start u]))))

/-! ## Association-list lemmas -/

theorem lookupA_insertA (k k' : Key) (v : α) (l : List (Key × α)) :
    lookupA k (insertA k' v l) = if k' = k then some v else lookupA k l := by
  induction l with
  | nil => simp [insertA, lookupA]
  | cons p rest ih =>
      rcases p with ⟨k₀, v₀⟩
      by_cases h0 : k₀ = k'
      · subst h0
        simp [insertA, lookupA]
        by_cases h1 : k₀ = k <;> simp [h1]
      · simp [insertA, h0, lookupA]
        by_cases h1 : k₀ = k
        · subst h1
          have : ¬ k' = k₀ := fun h => h0 h.symm
          simp [this]
        · simp [h1, ih]

theorem mem_of_lookupA {k : Key} {v : α} {l : List (Key × α)}
    (h : lookupA k l = some v) : (k, v) ∈ l := by
  induction l with
  | nil => simp [lookupA] at h
  | cons p rest ih =>
      rcases p with ⟨k₀, v₀⟩
      by_cases h0 : k₀ = k
      · subst h0
        simp [lookupA] at h
        simp [h]
      · simp [lookupA, h0] at h
        exact List.mem_cons_of_mem _ (ih h)

theorem lookupA_eq_some_of_mem {k : Key} {v : α} {l : List (Key × α)}
    (hnd : (l.map Prod.fst).Nodup) (h : (k, v) ∈ l) :
    lookupA k l = some v := by
  induction l with
  | nil => simp at h
  | cons p rest ih =>
      rcases p with ⟨k₀, v₀⟩
      simp only [List.map_cons, List.nodup_cons] at hnd
      rcases List.mem_cons.mp h with h | h
      · rcases Prod.mk.injEq .. ▸ h with ⟨h1, h2⟩
        simp [lookupA, h1.symm, h2]
      · have hk : k₀ ≠ k := by
          intro he
          exact hnd.1 (he ▸ (List.mem_map.mpr ⟨(k, v), h, rfl⟩))
        simp [lookupA, hk, ih hnd.2 h]

theorem lookupA_none_of_not_mem {k : Key} {l : List (Key × α)}
    (h : k ∉ l.map Prod.fst) : lookupA k l = none := by
  induction l with
  | nil => rfl
  | cons p rest ih =>
      simp only [List.map_cons, List.mem_cons] at h
      push_neg at h
      have : p.1 ≠ k := h.1.symm
      rcases p with ⟨k₀, v₀⟩
      simp [lookupA, this, ih h.2]

theorem lookupA_unique {k : Key} {v v' : α} {l : List (Key × α)}
    (hnd : (l.map Prod.fst).Nodup) (h : (k, v) ∈ l) (h' : (k, v') ∈ l) :
    v = v' := by
  have e1 := lookupA_eq_some_of_mem hnd h
  have e2 := lookupA_eq_some_of_mem hnd h'
  rw [e1] at e2
  exact Option.some.inj e2

theorem lookupA_filter_eq_some {k : Key} {v : α} {q : Key × α → Bool}
    {l : List (Key × α)} (hnd : (l.map Prod.fst).Nodup) :
    lookupA k (l.filter q) = some v ↔ (k, v) ∈ l ∧ q (k, v) = true := by
  constructor
  · intro h
    have hm := mem_of_lookupA h
    have := List.mem_filter.mp hm
    exact ⟨this.1, this.2⟩
  · rintro ⟨hm, hq⟩
    have hnd' : ((l.filter q).map Prod.fst).Nodup :=
      List.Nodup.sublist ((List.filter_sublist l).map Prod.fst) hnd
    exact lookupA_eq_some_of_mem hnd' (List.mem_filter.mpr ⟨hm, hq⟩)

/-! ## Characterizing the `process_pending` fold -/

theorem pendingStep_eq (d : Decode) (acc : List Key × List (Key × Texture))
    (p : Key × ChanState) :
    pendingStep d acc p =
      (acc.1 ++ (if resolvedB p.2 then [p.1] else []),
       match decodedVal d p.2 with
       | some t => insertA p.1 t acc.2
       | none => acc.2) := by
  rcases p with ⟨k, ch⟩
  rcases ch with _ | val | _
  · simp [pendingStep, resolvedB, decodedVal]
  · rcases val with _ | resp
    · simp [pendingStep, resolvedB, decodedVal]
    · simp only [pendingStep, resolvedB, decodedVal]
      cases d resp.bytes <;> simp
  · simp [pendingStep, resolvedB, decodedVal]

theorem foldl_pendingStep (d : Decode) (l : List (Key × ChanState))
    (r : List Key) (c : List (Key × Texture)) :
    l.foldl (pendingStep d) (r, c) = (r ++ removeList l, cacheFold d l c) := by
  induction l generalizing r c with
  | nil => simp [removeList, cacheFold]
  | cons p rest ih =>
      rw [List.foldl_cons, pendingStep_eq]
      rw [ih]
      have hrem : removeList (p :: rest)
          = (if resolvedB p.2 then [p.1] else []) ++ removeList rest := by
        by_cases h : resolvedB p.2 <;>
          simp [removeList, List.filter_cons, h]
      have hc : cacheFold d (p :: rest) c
          = cacheFold d rest
              (match decodedVal d p.2 with
               | some t => insertA p.1 t c
               | none => c) := by
        simp [cacheFold]
      rw [hrem, hc, List.append_assoc]

theorem process_pending_eq (d : Decode) (s : ARM) :
    process_pending d s =
      { s with
          cache := cacheFold d s.in_progress s.cache,
          in_progress :=
            s.in_progress.filter
              (fun p => decide (p.1 ∉ removeList s.in_progress)) } := by
  have hfold := foldl_pendingStep d s.in_progress [] s.cache
  have herase : ∀ (ks : List Key) (l : List (Key × ChanState)),
      ks.foldl (fun ip k => eraseA k ip) l
        = l.filter (fun p => decide (p.1 ∉ ks)) := by
    intro ks
    induction ks with
    | nil => intro l; simp
    | cons k rest ih =>
        intro l
        rw [List.foldl_cons, ih, eraseA, List.filter_filter]
        apply List.filter_congr
        intro p _
        by_cases h1 : p.1 = k <;> by_cases h2 : p.1 ∈ rest <;>
          simp [h1, h2]
  rw [process_pending, hfold]
  simp only []
  rw [herase]
  simp

theorem mem_removeList {k : Key} {l : List (Key × ChanState)} :
    k ∈ removeList l ↔ ∃ ch, (k, ch) ∈ l ∧ resolvedB ch = true := by
  constructor
  · intro h
    rcases List.mem_map.mp h with ⟨p, hp, hfst⟩
    rcases List.mem_filter.mp hp with ⟨hm, hres⟩
    rcases p with ⟨k₀, ch₀⟩
    cases hfst
    exact ⟨ch₀, hm, hres⟩
  · rintro ⟨ch, hm, hres⟩
    exact List.mem_map.mpr ⟨(k, ch), List.mem_filter.mpr ⟨hm, hres⟩, rfl⟩

/-- After `process_pending`, an entry is still in flight exactly when it was
in flight before with its reply channel still empty. -/
theorem process_pending_in_progress (d : Decode) (s : ARM)
    (hnd : (s.in_progress.map Prod.fst).Nodup) (k : Key) (ch : ChanState) :
    lookupA k (process_pending d s).in_progress = some ch ↔
      lookupA k s.in_progress = some ch ∧ ch = .empty := by
  rw [process_pending_eq]
  simp only []
  rw [lookupA_filter_eq_some hnd]
  constructor
  · rintro ⟨hm, hq⟩
    have hnotrem : k ∉ removeList s.in_progress := of_decide_eq_true hq
    have hres : resolvedB ch = false := by
      cases hres : resolvedB ch
      · rfl
      · exact absurd (mem_removeList.mpr ⟨ch, hm, hres⟩) hnotrem
    have hch : ch = .empty := by
      cases ch <;> simp [resolvedB] at hres ⊢
    exact ⟨lookupA_eq_some_of_mem hnd hm, hch⟩
  · rintro ⟨hl, hch⟩
    subst hch
    have hm := mem_of_lookupA hl
    refine ⟨hm, decide_eq_true ?_⟩
    intro hrem
    rcases mem_removeList.mp hrem with ⟨ch', hm', hres'⟩
    have := lookupA_unique hnd hm hm'
    subst this
    simp [resolvedB] at hres'

theorem lookupA_cacheFold_of_none (d : Decode) {k : Key}
    {l : List (Key × ChanState)}
    (h : ∀ ch, (k, ch) ∈ l → decodedVal d ch = none)
    (c : List (Key × Texture)) :
    lookupA k (cacheFold d l c) = lookupA k c := by
  induction l generalizing c with
  | nil => rfl
  | cons p rest ih =>
      rcases p with ⟨k', ch'⟩
      have hrec := ih (fun ch hm => h ch (List.mem_cons_of_mem _ hm))
      cases hdec : decodedVal d ch' with
      | none =>
          have : cacheFold d ((k', ch') :: rest) c = cacheFold d rest c := by
            simp [cacheFold, hdec]
          rw [this, hrec]
      | some t =>
          have hk : k' ≠ k := by
            intro he
            subst he
            rw [h ch' (List.mem_cons_self _ _)] at hdec
            exact Option.noConfusion hdec
          have : cacheFold d ((k', ch') :: rest) c
              = cacheFold d rest (insertA k' t c) := by
            simp [cacheFold, hdec]
          rw [this, hrec, lookupA_insertA]
          simp [hk]

theorem lookupA_cacheFold_of_decoded (d : Decode) {k : Key} {ch : ChanState}
    {t : Texture} {l : List (Key × ChanState)}
    (hnd : (l.map Prod.fst).Nodup) (hm : (k, ch) ∈ l)
    (hdec : decodedVal d ch = some t) (c : List (Key × Texture)) :
    lookupA k (cacheFold d l c) = some t := by
  induction l generalizing c with
  | nil => simp at hm
  | cons p rest ih =>
      rcases p with ⟨k', ch'⟩
      simp only [List.map_cons, List.nodup_cons] at hnd
      rcases List.mem_cons.mp hm with h | h
      · rcases Prod.mk.injEq .. ▸ h with ⟨h1, h2⟩
        subst h1; subst h2
        have hnot : ∀ ch₀, (k, ch₀) ∈ rest → decodedVal d ch₀ = none := by
          intro ch₀ hmem
          exact absurd (List.mem_map.mpr ⟨(k, ch₀), hmem, rfl⟩) hnd.1
        have : cacheFold d ((k, ch) :: rest) c
            = cacheFold d rest (insertA k t c) := by
          simp [cacheFold, hdec]
        rw [this, lookupA_cacheFold_of_none d hnot, lookupA_insertA]
        simp
      · have hk : k' ≠ k := by
          intro he
          subst he
          exact hnd.1 (List.mem_map.mpr ⟨(k', ch), h, rfl⟩)
        have hrec := ih hnd.2 h
        cases hdec' : decodedVal d ch' with
        | none =>
            have : cacheFold d ((k', ch') :: rest) c = cacheFold d rest c := by
              simp [cacheFold, hdec']
            rw [this, hrec]
        | some t' =>
            have : cacheFold d ((k', ch') :: rest) c
                = cacheFold d rest (insertA k' t' c) := by
              simp [cacheFold, hdec']
            rw [this, hrec]

theorem process_pending_cache_of_decoded (d : Decode) (s : ARM) {k : Key}
    {ch : ChanState} {t : Texture}
    (hnd : (s.in_progress.map Prod.fst).Nodup) (hm : (k, ch) ∈ s.in_progress)
    (hdec : decodedVal d ch = some t) :
    lookupA k (process_pending d s).cache = some t := by
  rw [process_pending_eq]
  exact lookupA_cacheFold_of_decoded d hnd hm hdec s.cache

theorem process_pending_cache_of_none (d : Decode) (s : ARM) {k : Key}
    (h : ∀ ch, (k, ch) ∈ s.in_progress → decodedVal d ch = none) :
    lookupA k (process_pending d s).cache = lookupA k s.cache := by
  rw [process_pending_eq]
  exact lookupA_cacheFold_of_none d h s.cache

theorem mem_keys_insertA {x k : Key} {v : α} {l : List (Key × α)} :
    x ∈ (insertA k v l).map Prod.fst ↔ x = k ∨ x ∈ l.map Prod.fst := by
  induction l with
  | nil => simp [insertA]
  | cons p rest ih =>
      rcases p with ⟨k₀, v₀⟩
      by_cases h : k₀ = k
      · subst h
        simp [insertA]
      · simp [insertA, h, ih]
        tauto

theorem nodup_keys_insertA {k : Key} {v : α} {l : List (Key × α)}
    (hnd : (l.map Prod.fst).Nodup) :
    ((insertA k v l).map Prod.fst).Nodup := by
  induction l with
  | nil => simp [insertA]
  | cons p rest ih =>
      rcases p with ⟨k₀, v₀⟩
      simp only [List.map_cons, List.nodup_cons] at hnd
      by_cases h : k₀ = k
      · subst h
        simpa [insertA] using hnd
      · have he : insertA k v ((k₀, v₀) :: rest)
            = (k₀, v₀) :: insertA k v rest := by
          simp [insertA, h]
        rw [he]
        simp only [List.map_cons, List.nodup_cons]
        refine ⟨?_, ih hnd.2⟩
        intro hmem
        rcases mem_keys_insertA.mp hmem with h1 | h1
        · exact h h1
        · exact hnd.1 h1

theorem nodup_keys_process_pending (d : Decode) (s : ARM)
    (hnd : (s.in_progress.map Prod.fst).Nodup) :
    ((process_pending d s).in_progress.map Prod.fst).Nodup := by
  rw [process_pending_eq]
  exact List.Nodup.sublist
    ((List.filter_sublist s.in_progress).map Prod.fst) hnd

/-! ## The bounded download loop serializes requests -/

theorem fullTrace_append (l₁ l₂ : List Key) :
    fullTrace (l₁ ++ l₂) = fullTrace l₁ ++ fullTrace l₂ := by
  simp [fullTrace]

theorem singleton_task_split {pre post : List (Key × Bool)}
    {x y : Key × Bool} (h : pre ++ x :: post = [y]) :
    pre = [] ∧ x = y ∧ post = [] := by
  cases pre with
  | nil =>
      simp only [List.nil_append, List.cons.injEq] at h
      exact ⟨rfl, h.1, h.2⟩
  | cons a pre' =>
      simp only [List.cons_append, List.cons.injEq] at h
      exact absurd h.2 (by simp)

theorem BoundedInv_step {reqs : List Key} {s s' : DLState}
    (hstep : DLStep true s s') (hinv : BoundedInv reqs s) :
    BoundedInv reqs s' := by
  rcases hinv with ⟨done, rest, hsplit, hcase⟩
  cases hstep with
  | recv u rest₀ tasks tr h =>
      have htasks : tasks = [] := h rfl
      subst htasks
      rcases hcase with ⟨hq, _, htr⟩ | ⟨u₀, rest', _, _, hsub⟩
      · refine ⟨done, rest, hsplit, Or.inr ⟨u, rest₀, ?_, rfl, Or.inl ⟨rfl, htr⟩⟩⟩
        exact hq ▸ rfl
      · rcases hsub with ⟨htasks, _⟩ | ⟨htasks, _⟩ <;> simp at htasks
  | start q pre post u tr =>
      rcases hcase with ⟨_, htasks, _⟩ | ⟨u₀, rest', hrest, hq, hsub⟩
      · exact absurd htasks (by simp)
      · rcases hsub with ⟨htasks, htr⟩ | ⟨htasks, htr⟩
        · rcases singleton_task_split htasks with ⟨hpre, hx, hpost⟩
          rcases Prod.mk.injEq .. ▸ hx with ⟨hu, _⟩
          subst hpre; subst hpost; subst hu
          have htr' : tr = fullTrace done := htr
          exact ⟨done, rest, hsplit,
            Or.inr ⟨u, rest', hrest, hq,
              Or.inr ⟨rfl, show tr ++ [Ev.start u] = _ by rw [htr']⟩⟩⟩
        · rcases singleton_task_split htasks with ⟨_, hx, _⟩
          rcases Prod.mk.injEq .. ▸ hx with ⟨_, hb⟩
          exact absurd hb (by simp)
  | finish q pre post u tr =>
      rcases hcase with ⟨_, htasks, _⟩ | ⟨u₀, rest', hrest, hq, hsub⟩
      · exact absurd htasks (by simp)
      · rcases hsub with ⟨htasks, htr⟩ | ⟨htasks, htr⟩
        · rcases singleton_task_split htasks with ⟨_, hx, _⟩
          rcases Prod.mk.injEq .. ▸ hx with ⟨_, hb⟩
          exact absurd hb (by simp)
        · rcases singleton_task_split htasks with ⟨hpre, hx, hpost⟩
          rcases Prod.mk.injEq .. ▸ hx with ⟨hu, _⟩
          subst hpre; subst hpost; subst hu
          have htr' : tr = fullTrace done ++ [Ev.start u] := htr
          refine ⟨done ++ [u], rest', by rw [hsplit, hrest]; simp,
            Or.inl ⟨hq, rfl, ?_⟩⟩
          show tr ++ [Ev.finish u] = fullTrace (done ++ [u])
          rw [htr', fullTrace_append]
          simp [fullTrace]

theorem BoundedInv_reach {reqs : List Key} {s : DLState}
    (h : DLReach true ⟨reqs, [], []⟩ s) : BoundedInv reqs s := by
  induction h with
  | refl => exact ⟨[], reqs, rfl, Or.inl ⟨rfl, rfl, rfl⟩⟩
  | tail _ hstep ih => exact BoundedInv_step hstep ih

/-- With two queued requests, the bounded loop can only ever produce a
prefix of the fully serialized trace. -/
theorem bounded_two_trace {a b : Key} {s : DLState}
    (h : DLReach true ⟨[a, b], [], []⟩ s) :
    s.trace = [] ∨ s.trace = [.start a] ∨
    s.trace = [.start a, .finish a] ∨
    s.trace = [.start a, .finish a, .start b] ∨
    s.trace = [.start a, .finish a, .start b, .finish b] := by
  rcases BoundedInv_reach h with ⟨done, rest, hsplit, hcase⟩
  rcases done with _ | ⟨x, _ | ⟨y, _ | ⟨z, done'⟩⟩⟩
  · have hrest2 : rest = [a, b] := by simpa using hsplit.symm
    subst hrest2
    rcases hcase with ⟨_, _, htr⟩ | ⟨u, rest', hrest, _, hsub⟩
    · exact Or.inl (by simpa [fullTrace] using htr)
    · have hu : u = a := by
        simp only [List.cons.injEq] at hrest
        exact hrest.1.symm
      subst hu
      rcases hsub with ⟨_, htr⟩ | ⟨_, htr⟩
      · exact Or.inl (by simpa [fullTrace] using htr)
      · exact Or.inr (Or.inl (by simpa [fullTrace] using htr))
  · have hx : x = a ∧ rest = [b] := by
      have h2 := hsplit
      simp only [List.cons_append, List.nil_append, List.cons.injEq] at h2
      exact ⟨h2.1.symm, h2.2.symm⟩
    rcases hx with ⟨hx, hrest2⟩
    subst hx; subst hrest2
    rcases hcase with ⟨_, _, htr⟩ | ⟨u, rest', hrest, _, hsub⟩
    · exact Or.inr (Or.inr (Or.inl (by simpa [fullTrace] using htr)))
    · have hu : u = b := by
        simp only [List.cons.injEq] at hrest
        exact hrest.1.symm
      subst hu
      rcases hsub with ⟨_, htr⟩ | ⟨_, htr⟩
      · exact Or.inr (Or.inr (Or.inl (by simpa [fullTrace] using htr)))
      · exact Or.inr (Or.inr (Or.inr (Or.inl
          (by simpa [fullTrace] using htr))))
  · have hx : x = a ∧ y = b ∧ rest = [] := by
      have h2 := hsplit
      simp only [List.cons_append, List.nil_append, List.cons.injEq] at h2
      exact ⟨h2.1.symm, h2.2.1.symm, h2.2.2.symm⟩
    rcases hx with ⟨hx, hy, hrest2⟩
    subst hx; subst hy; subst hrest2
    rcases hcase with ⟨_, _, htr⟩ | ⟨u, rest', hrest, _, _⟩
    · exact Or.inr (Or.inr (Or.inr (Or.inr
        (by simpa [fullTrace] using htr))))
    · exact absurd hrest (by simp)
  · exfalso
    have hl := congrArg List.length hsplit
    simp [List.length_append] at hl

/-! ## Last shared helpers -/

theorem resolvedB_of_decoded {d : Decode} {ch : ChanState} {t : Texture}
    (h : decodedVal d ch = some t) : resolvedB ch = true := by
  cases ch with
  | ready v => cases v <;> simp [resolvedB]
  | empty => simp [decodedVal] at h
  | closed => simp [decodedVal] at h

theorem process_pending_in_progress_none_of_resolved (d : Decode) (s : ARM)
    (hnd : (s.in_progress.map Prod.fst).Nodup) {k : Key} {ch : ChanState}
    (hm : (k, ch) ∈ s.in_progress) (hres : resolvedB ch = true) :
    lookupA k (process_pending d s).in_progress = none := by
  cases hafter : lookupA k (process_pending d s).in_progress with
  | none => rfl
  | some ch' =>
      rcases (process_pending_in_progress d s hnd k ch').mp hafter
        with ⟨hl, hch⟩
      subst hch
      have he := lookupA_unique hnd hm (mem_of_lookupA hl)
      rw [he] at hres
      simp [resolvedB] at hres

theorem decode_dichotomy (d : Decode) (s : ARM) (k : Key) :
    (∃ ch, (k, ch) ∈ s.in_progress ∧ (decodedVal d ch).isSome) ∨
    (∀ ch, (k, ch) ∈ s.in_progress → decodedVal d ch = none) := by
  by_cases h : ∃ ch, (k, ch) ∈ s.in_progress ∧ (decodedVal d ch).isSome
  · exact Or.inl h
  · push_neg at h
    refine Or.inr fun ch hm => ?_
    have hs := h ch hm
    cases hd : decodedVal d ch with
    | none => rfl
    | some t => rw [hd] at hs; simp at hs

theorem lookupA_perm {l l' : List (Key × α)} (hperm : l.Perm l')
    (hnd : ((l'.map Prod.fst)).Nodup) (k : Key) :
    lookupA k l = lookupA k l' := by
  have hndl : (l.map Prod.fst).Nodup :=
    ((hperm.map Prod.fst).nodup_iff).mpr hnd
  apply Option.ext
  intro v
  simp only [Option.mem_def]
  constructor
  · intro h
    exact lookupA_eq_some_of_mem hnd (hperm.mem_iff.mp (mem_of_lookupA h))
  · intro h
    exact lookupA_eq_some_of_mem hndl
      (hperm.mem_iff.mpr (mem_of_lookupA h))

/-! ## Claim theorems -/

/-- C10: for a key already in the completed-asset store,
`get_image_from_url` is a pure lookup: it returns the stored shared handle
itself (cloning the `Rc`, not the texture), leaves the whole manager state
unchanged, and sends nothing to the download pipeline. -/
theorem C10_cached_get_is_pure_lookup (env : SendOutcome) (s : ARM)
    (k : Key) (t : Texture) (h : lookupA k s.cache = some t) :
    get_image_from_url env s k = .ok (some t, s, []) := by
  simp [get_image_from_url, h]

theorem C10_witness :
    get_image_from_url .ok ⟨[("u", 5)], [], [], 0⟩ "u"
      = .ok (some 5, ⟨[("u", 5)], [], [], 0⟩, []) :=
  C10_cached_get_is_pure_lookup .ok ⟨[("u", 5)], [], [], 0⟩ "u" 5 rfl

/-- C2: for a key currently in flight (and hence, by the cache/in-flight
exclusivity invariant, not cached), `get_image_from_url` returns nothing,
sends no request to the pipeline, and leaves the state — in particular the
in-flight set — unchanged, whatever the queue would have done. -/
theorem C2_get_in_flight_is_noop (env : SendOutcome) (s : ARM) (k : Key)
    (hdisj : disjointKeys s) (hin : (lookupA k s.in_progress).isSome) :
    get_image_from_url env s k = .ok (none, s, []) := by
  have hc : lookupA k s.cache = none := by
    rcases hdisj k with h | h
    · exact h
    · rw [h] at hin
      simp at hin
  simp [get_image_from_url, hc, hin]

theorem C2_witness :
    get_image_from_url .ok ⟨[], [], [("k", .empty)], 0⟩ "k"
      = .ok (none, ⟨[], [], [("k", .empty)], 0⟩, []) :=
  C2_get_in_flight_is_noop .ok ⟨[], [], [("k", .empty)], 0⟩ "k"
    (fun _ => Or.inl rfl) rfl

/-- C7: for an uncached key with no in-flight entry, a full queue makes
`get_image_from_url` return nothing with the state unchanged (so a later
call can retry the enqueue), while a closed queue is fatal
(the `panic!`, embedded as `Except.error`). -/
theorem C7_enqueue_failure_semantics (s : ARM) (k : Key)
    (hc : lookupA k s.cache = none) (hin : lookupA k s.in_progress = none) :
    get_image_from_url .full s k = .ok (none, s, []) ∧
    get_image_from_url .closed s k = .error () := by
  constructor <;> simp [get_image_from_url, hc, hin]

theorem C7_witness :
    get_image_from_url .full ⟨[], [], [], 0⟩ "k"
      = .ok (none, ⟨[], [], [], 0⟩, []) ∧
    get_image_from_url .closed ⟨[], [], [], 0⟩ "k" = .error () :=
  C7_enqueue_failure_semantics ⟨[], [], [], 0⟩ "k" rfl rfl

/-- C4: a harvested successful reply whose payload decodes puts the decoded
texture into the cache, and from then on any `get_image_from_url` call for
that key returns exactly that shared handle, does not change the state, and
sends no new request — so no re-fetch and no re-decode happens (`get` never
invokes the decoder at all). -/
theorem C4_success_roundtrip (env : SendOutcome) (d : Decode) (s : ARM)
    (k : Key) (resp : DownloadResponse) (t : Texture)
    (hnd : (s.in_progress.map Prod.fst).Nodup)
    (hch : lookupA k s.in_progress = some (.ready (some resp)))
    (hdec : d resp.bytes = some t) :
    lookupA k (process_pending d s).cache = some t ∧
    get_image_from_url env (process_pending d s) k
      = .ok (some t, process_pending d s, []) := by
  have hm := mem_of_lookupA hch
  have hcache := process_pending_cache_of_decoded d s hnd hm
    (show decodedVal d (.ready (some resp)) = some t from hdec)
  exact ⟨hcache, by simp [get_image_from_url, hcache]⟩

theorem C4_witness :
    lookupA "k"
        (process_pending (fun b => some b.length)
          ⟨[], [], [("k", .ready (some ⟨[1, 2]⟩))], 0⟩).cache = some 2 ∧
    get_image_from_url .ok
        (process_pending (fun b => some b.length)
          ⟨[], [], [("k", .ready (some ⟨[1, 2]⟩))], 0⟩) "k"
      = .ok (some 2,
             process_pending (fun b => some b.length)
               ⟨[], [], [("k", .ready (some ⟨[1, 2]⟩))], 0⟩, []) :=
  C4_success_roundtrip .ok (fun b => some b.length)
    ⟨[], [], [("k", .ready (some ⟨[1, 2]⟩))], 0⟩ "k" ⟨[1, 2]⟩ 2
    (by simp) rfl rfl

/-- C5 counterexample: the claim says a decode failure makes the key a
permanent miss with "no new fetch ever started automatically".  On the
code, after `process_pending` drops a reply whose payload does not decode,
the key is in neither store, so the very next `get_image_from_url` call
enqueues a brand-new `DownloadRequest` (the sent-request list is `["k"]`,
and a fresh in-flight entry appears). -/
theorem C5_counterexample :
    process_pending (fun _ => none)
        ⟨[], [], [("k", .ready (some ⟨[7]⟩))], 0⟩ = ⟨[], [], [], 0⟩ ∧
    get_image_from_url .ok (ARM.mk [] [] [] 0) "k"
      = .ok (none, ⟨[], [], [("k", .empty)], 0⟩, ["k"]) :=
  ⟨rfl, rfl⟩

/-- C5 (amended): after `poll()` harvests a reply whose payload fails to
decode, the in-flight entry is removed and no asset is cached, so
`get_image_from_url` keeps returning no asset for that key; but instead of
the key becoming a permanent miss with no further fetches, the very next
`get` call for it enqueues a brand-new fetch request (exactly as after a
failed fetch) — only `poll` itself never retries. -/
theorem C5_decode_failure_drops_result (d : Decode) (s : ARM) (k : Key)
    (resp : DownloadResponse)
    (hnd : (s.in_progress.map Prod.fst).Nodup)
    (hch : lookupA k s.in_progress = some (.ready (some resp)))
    (hdec : d resp.bytes = none) (hc : lookupA k s.cache = none) :
    lookupA k (process_pending d s).cache = none ∧
    lookupA k (process_pending d s).in_progress = none ∧
    get_image_from_url .ok (process_pending d s) k
      = .ok (none,
             { process_pending d s with
                 in_progress :=
                   insertA k .empty (process_pending d s).in_progress },
             [k]) := by
  have hm := mem_of_lookupA hch
  have hnone : ∀ ch, (k, ch) ∈ s.in_progress → decodedVal d ch = none := by
    intro ch hmem
    have he := lookupA_unique hnd hmem hm
    subst he
    exact hdec
  have hcache : lookupA k (process_pending d s).cache = none := by
    rw [process_pending_cache_of_none d s hnone]
    exact hc
  have hip : lookupA k (process_pending d s).in_progress = none :=
    process_pending_in_progress_none_of_resolved d s hnd hm rfl
  refine ⟨hcache, hip, ?_⟩
  simp [get_image_from_url, hcache, hip]

theorem C5_witness :
    lookupA "k"
        (process_pending (fun _ => none)
          ⟨[], [], [("k", .ready (some ⟨[7]⟩))], 0⟩).cache = none ∧
    lookupA "k"
        (process_pending (fun _ => none)
          ⟨[], [], [("k", .ready (some ⟨[7]⟩))], 0⟩).in_progress = none ∧
    get_image_from_url .ok
        (process_pending (fun _ => none)
          ⟨[], [], [("k", .ready (some ⟨[7]⟩))], 0⟩) "k"
      = .ok (none,
             { process_pending (fun _ => none)
                 ⟨[], [], [("k", .ready (some ⟨[7]⟩))], 0⟩ with
                 in_progress :=
                   insertA "k" .empty
                     (process_pending (fun _ => none)
                       ⟨[], [], [("k", .ready (some ⟨[7]⟩))], 0⟩).in_progress },
             ["k"]) :=
  C5_decode_failure_drops_result (fun _ => none)
    ⟨[], [], [("k", .ready (some ⟨[7]⟩))], 0⟩ "k" ⟨[7]⟩
    (by simp) rfl rfl rfl

/-- C6: after `poll()` harvests a failure reply (the `None` download
response), the in-flight entry is removed and nothing is cached, so the
next `get_image_from_url` call returns no asset but — the key now being in
neither store — creates a fresh in-flight entry and enqueues a brand-new
fetch request for it. -/
theorem C6_failed_fetch_retries_on_get (d : Decode) (s : ARM) (k : Key)
    (hnd : (s.in_progress.map Prod.fst).Nodup)
    (hch : lookupA k s.in_progress = some (.ready none))
    (hc : lookupA k s.cache = none) :
    lookupA k (process_pending d s).cache = none ∧
    lookupA k (process_pending d s).in_progress = none ∧
    get_image_from_url .ok (process_pending d s) k
      = .ok (none,
             { process_pending d s with
                 in_progress :=
                   insertA k .empty (process_pending d s).in_progress },
             [k]) := by
  have hm := mem_of_lookupA hch
  have hnone : ∀ ch, (k, ch) ∈ s.in_progress → decodedVal d ch = none := by
    intro ch hmem
    have he := lookupA_unique hnd hmem hm
    subst he
    rfl
  have hcache : lookupA k (process_pending d s).cache = none := by
    rw [process_pending_cache_of_none d s hnone]
    exact hc
  have hip : lookupA k (process_pending d s).in_progress = none :=
    process_pending_in_progress_none_of_resolved d s hnd hm rfl
  refine ⟨hcache, hip, ?_⟩
  simp [get_image_from_url, hcache, hip]

theorem C6_witness :
    lookupA "k"
        (process_pending (fun _ => some 1)
          ⟨[], [], [("k", .ready none)], 0⟩).cache = none ∧
    lookupA "k"
        (process_pending (fun _ => some 1)
          ⟨[], [], [("k", .ready none)], 0⟩).in_progress = none ∧
    get_image_from_url .ok
        (process_pending (fun _ => some 1)
          ⟨[], [], [("k", .ready none)], 0⟩) "k"
      = .ok (none,
             { process_pending (fun _ => some 1)
                 ⟨[], [], [("k", .ready none)], 0⟩ with
                 in_progress :=
                   insertA "k" .empty
                     (process_pending (fun _ => some 1)
                       ⟨[], [], [("k", .ready none)], 0⟩).in_progress },
             ["k"]) :=
  C6_failed_fetch_retries_on_get (fun _ => some 1)
    ⟨[], [], [("k", .ready none)], 0⟩ "k" (by simp) rfl rfl

/-- C8: `get_text_texture_and_size` is deterministic and idempotent — after
any call for `t`, repeating the call returns the identical (texture, size)
pair and leaves the state (including the fresh-texture counter, i.e. no
re-render) unchanged; a call for `t` never overwrites a distinct string's
entry; and two distinct uncached strings receive distinct textures rather
than sharing one. -/
theorem C8_text_cache_idempotent (size_of : Key → Nat × Nat) (s : ARM)
    (t t' : Key) (hne : t' ≠ t) :
    get_text_texture_and_size size_of
        ((get_text_texture_and_size size_of s t).2) t
      = get_text_texture_and_size size_of s t ∧
    lookupA t' ((get_text_texture_and_size size_of s t).2).font_cache
      = lookupA t' s.font_cache ∧
    (lookupA t s.font_cache = none → lookupA t' s.font_cache = none →
      ((get_text_texture_and_size size_of s t).1).1
        ≠ ((get_text_texture_and_size size_of
              ((get_text_texture_and_size size_of s t).2) t').1).1) := by
  have hts : t ≠ t' := fun h => hne h.symm
  cases hft : lookupA t s.font_cache with
  | some pair =>
      refine ⟨?_, ?_, ?_⟩
      · simp [get_text_texture_and_size, hft]
      · simp [get_text_texture_and_size, hft]
      · intro hnone _
        simp [hft] at hnone
  | none =>
      have hcall : get_text_texture_and_size size_of s t
          = ((s.next_id, size_of t),
             { s with
                 font_cache :=
                   insertA t (s.next_id, size_of t) s.font_cache,
                 next_id := s.next_id + 1 }) := by
        simp [get_text_texture_and_size, hft]
      refine ⟨?_, ?_, ?_⟩
      · rw [hcall]
        simp only []
        have hl : lookupA t
            (insertA t (s.next_id, size_of t) s.font_cache)
            = some (s.next_id, size_of t) := by
          rw [lookupA_insertA]
          simp
        simp [get_text_texture_and_size, hl]
      · rw [hcall]
        simp only []
        rw [lookupA_insertA]
        simp [hts]
      · intro _ hft'
        rw [hcall]
        simp only []
        have hl' : lookupA t'
            (insertA t (s.next_id, size_of t) s.font_cache) = none := by
          rw [lookupA_insertA]
          simp [hts, hft']
        simp [get_text_texture_and_size, hl']

theorem C8_witness :
    get_text_texture_and_size (fun _ => (3, 4))
        ((get_text_texture_and_size (fun _ => (3, 4))
            ⟨[], [], [], 0⟩ "a").2) "a"
      = get_text_texture_and_size (fun _ => (3, 4)) ⟨[], [], [], 0⟩ "a" ∧
    lookupA "b"
        ((get_text_texture_and_size (fun _ => (3, 4))
            ⟨[], [], [], 0⟩ "a").2).font_cache
      = lookupA "b" (ARM.mk [] [] [] 0).font_cache ∧
    (lookupA "a" (ARM.mk [] [] [] 0).font_cache = none →
      lookupA "b" (ARM.mk [] [] [] 0).font_cache = none →
      ((get_text_texture_and_size (fun _ => (3, 4))
          ⟨[], [], [], 0⟩ "a").1).1
        ≠ ((get_text_texture_and_size (fun _ => (3, 4))
              ((get_text_texture_and_size (fun _ => (3, 4))
                  ⟨[], [], [], 0⟩ "a").2) "b").1).1) :=
  C8_text_cache_idempotent (fun _ => (3, 4)) ⟨[], [], [], 0⟩ "a" "b"
    (by decide)

/-- C1: the cache/in-flight exclusivity invariant is preserved by both
public operations (with distinct in-flight keys, as the `HashMap`
guarantees): after `get_image_from_url` the stores stay disjoint and an
in-flight entry is only created for a key that was in neither store, and
after `process_pending` the stores stay disjoint — in particular a key
whose asset `process_pending` just inserted is no longer in flight. -/
theorem C1_exclusive_stores (env : SendOutcome) (d : Decode) (s : ARM)
    (url k : Key) (t : Texture)
    (hnd : (s.in_progress.map Prod.fst).Nodup) (hdisj : disjointKeys s) :
    (disjointKeys (getOut env s url).2.1 ∧
      (((getOut env s url).2.1.in_progress.map Prod.fst).Nodup) ∧
      ((lookupA url ((getOut env s url).2.1).in_progress).isSome →
        lookupA url s.in_progress = none →
        lookupA url s.cache = none)) ∧
    (disjointKeys (process_pending d s) ∧
      (((process_pending d s).in_progress.map Prod.fst).Nodup) ∧
      (lookupA k s.cache = none →
        lookupA k (process_pending d s).cache = some t →
        lookupA k (process_pending d s).in_progress = none)) := by
  constructor
  · cases hcache : lookupA url s.cache with
    | some t₀ =>
        have hout : getOut env s url = (some t₀, s, []) := by
          simp [getOut, get_image_from_url, hcache]
        rw [hout]
        refine ⟨hdisj, hnd, ?_⟩
        intro hs hnone
        have hs' : (lookupA url s.in_progress).isSome = true := hs
        rw [hnone] at hs'
        exact absurd hs' (by simp)
    | none =>
        cases hin : (lookupA url s.in_progress).isSome with
        | true =>
            have hout : getOut env s url = (none, s, []) := by
              simp [getOut, get_image_from_url, hcache, hin]
            rw [hout]
            refine ⟨hdisj, hnd, ?_⟩
            intro _ hnone
            exact absurd (hnone ▸ hin) (by simp)
        | false =>
            cases env with
            | ok =>
                have hout : getOut .ok s url
                    = (none,
                       { s with
                           in_progress :=
                             insertA url .empty s.in_progress }, [url]) := by
                  simp [getOut, get_image_from_url, hcache, hin]
                rw [hout]
                refine ⟨?_, nodup_keys_insertA hnd, fun _ _ => by simp [hcache]⟩
                intro k₂
                by_cases hk : url = k₂
                · subst hk
                  exact Or.inl hcache
                · rcases hdisj k₂ with h | h
                  · exact Or.inl h
                  · refine Or.inr ?_
                    simp only []
                    rw [lookupA_insertA]
                    simp [hk, h]
            | full =>
                have hout : getOut .full s url = (none, s, []) := by
                  simp [getOut, get_image_from_url, hcache, hin]
                rw [hout]
                exact ⟨hdisj, hnd, fun _ _ => by simp [hcache]⟩
            | closed =>
                have hout : getOut .closed s url = (none, s, []) := by
                  simp [getOut, get_image_from_url, hcache, hin]
                rw [hout]
                exact ⟨hdisj, hnd, fun _ _ => by simp [hcache]⟩
  · have hdisj' : disjointKeys (process_pending d s) := by
      intro k₂
      rcases decode_dichotomy d s k₂ with ⟨ch, hm, hdec⟩ | hall
      · rcases Option.isSome_iff_exists.mp hdec with ⟨t₂, ht₂⟩
        exact Or.inr (process_pending_in_progress_none_of_resolved d s hnd
          hm (resolvedB_of_decoded ht₂))
      · rcases hdisj k₂ with h | h
        · exact Or.inl (by rw [process_pending_cache_of_none d s hall, h])
        · refine Or.inr ?_
          cases hafter :
              lookupA k₂ (process_pending d s).in_progress with
          | none => rfl
          | some ch' =>
              rcases (process_pending_in_progress d s hnd k₂ ch').mp hafter
                with ⟨hl, _⟩
              rw [h] at hl
              exact Option.noConfusion hl
    refine ⟨hdisj', nodup_keys_process_pending d s hnd, ?_⟩
    intro hkc hkc'
    rcases decode_dichotomy d s k with ⟨ch, hm, hdec⟩ | hall
    · rcases Option.isSome_iff_exists.mp hdec with ⟨t₂, ht₂⟩
      exact process_pending_in_progress_none_of_resolved d s hnd hm
        (resolvedB_of_decoded ht₂)
    · rw [process_pending_cache_of_none d s hall, hkc] at hkc'
      exact Option.noConfusion hkc'

theorem C1_witness :
    (disjointKeys
        (getOut .ok ⟨[("c", 9)], [], [("p", .empty)], 0⟩ "u").2.1 ∧
      (((getOut .ok ⟨[("c", 9)], [], [("p", .empty)], 0⟩
            "u").2.1.in_progress.map Prod.fst).Nodup) ∧
      ((lookupA "u"
          ((getOut .ok ⟨[("c", 9)], [], [("p", .empty)], 0⟩
              "u").2.1).in_progress).isSome →
        lookupA "u"
            (ARM.mk [("c", 9)] [] [("p", .empty)] 0).in_progress = none →
        lookupA "u" (ARM.mk [("c", 9)] [] [("p", .empty)] 0).cache
          = none)) ∧
    (disjointKeys
        (process_pending (fun _ => some 1)
          ⟨[("c", 9)], [], [("p", .empty)], 0⟩) ∧
      (((process_pending (fun _ => some 1)
            ⟨[("c", 9)], [], [("p", .empty)], 0⟩).in_progress.map
              Prod.fst).Nodup) ∧
      (lookupA "p" (ARM.mk [("c", 9)] [] [("p", .empty)] 0).cache = none →
        lookupA "p"
            (process_pending (fun _ => some 1)
              ⟨[("c", 9)], [], [("p", .empty)], 0⟩).cache = some 3 →
        lookupA "p"
            (process_pending (fun _ => some 1)
              ⟨[("c", 9)], [], [("p", .empty)], 0⟩).in_progress
          = none)) :=
  C1_exclusive_stores .ok (fun _ => some 1)
    ⟨[("c", 9)], [], [("p", .empty)], 0⟩ "u" "p" 3 (by simp)
    (fun k => by
      by_cases h : "c" = k
      · subst h
        exact Or.inr rfl
      · exact Or.inl (by simp [lookupA, h]))

/-- C3: one `process_pending` call removes exactly the in-flight entries
whose channel resolved (a reply, a failure, or a closed channel) and keeps
untouched exactly those whose reply has not arrived — an entry survives iff
it was in flight with an empty channel, so nothing resolved stays in
flight.  Because removal is deferred to after the whole set is inspected,
the outcome is independent of inspection order: running on any permutation
of the in-flight entries yields the same in-flight set and the same cache,
pointwise. -/
theorem C3_poll_removes_exactly_resolved (d : Decode) (s : ARM)
    (hnd : (s.in_progress.map Prod.fst).Nodup) :
    (∀ k ch, lookupA k (process_pending d s).in_progress = some ch ↔
        (lookupA k s.in_progress = some ch ∧ ch = .empty)) ∧
    (∀ l', l'.Perm s.in_progress → ∀ k,
        lookupA k
            (process_pending d { s with in_progress := l' }).in_progress
          = lookupA k (process_pending d s).in_progress ∧
        lookupA k (process_pending d { s with in_progress := l' }).cache
          = lookupA k (process_pending d s).cache) := by
  refine ⟨process_pending_in_progress d s hnd, ?_⟩
  intro l' hperm k
  have hnd' : (l'.map Prod.fst).Nodup :=
    ((hperm.map Prod.fst).nodup_iff).mpr hnd
  have hs2 : ({ s with in_progress := l' } : ARM).in_progress = l' := rfl
  constructor
  · apply Option.ext
    intro ch
    simp only [Option.mem_def]
    rw [process_pending_in_progress d { s with in_progress := l' } hnd' k ch,
      process_pending_in_progress d s hnd k ch, hs2,
      lookupA_perm hperm hnd k]
  · rcases decode_dichotomy d s k with ⟨ch, hm, hsome⟩ | hall
    · rcases Option.isSome_iff_exists.mp hsome with ⟨t, ht⟩
      have hm' : (k, ch) ∈ l' := hperm.mem_iff.mpr hm
      rw [process_pending_cache_of_decoded d s hnd hm ht,
        process_pending_cache_of_decoded d { s with in_progress := l' }
          hnd' (by rw [hs2]; exact hm') ht]
    · have hall' : ∀ ch, (k, ch) ∈ l' → decodedVal d ch = none :=
        fun ch hm => hall ch (hperm.mem_iff.mp hm)
      rw [process_pending_cache_of_none d s hall,
        process_pending_cache_of_none d { s with in_progress := l' }
          (by rw [hs2]; exact hall')]

theorem C3_witness :
    (∀ k ch,
        lookupA k
            (process_pending (fun _ => some 1)
              ⟨[], [], [("k", .closed), ("j", .empty)], 0⟩).in_progress
          = some ch ↔
        (lookupA k
            (ARM.mk [] [] [("k", .closed), ("j", .empty)] 0).in_progress
          = some ch ∧ ch = .empty)) ∧
    (∀ l', l'.Perm
        (ARM.mk [] [] [("k", .closed), ("j", .empty)] 0).in_progress →
      ∀ k,
        lookupA k
            (process_pending (fun _ => some 1)
              { ARM.mk [] [] [("k", .closed), ("j", .empty)] 0 with
                  in_progress := l' }).in_progress
          = lookupA k
              (process_pending (fun _ => some 1)
                ⟨[], [], [("k", .closed), ("j", .empty)], 0⟩).in_progress ∧
        lookupA k
            (process_pending (fun _ => some 1)
              { ARM.mk [] [] [("k", .closed), ("j", .empty)] 0 with
                  in_progress := l' }).cache
          = lookupA k
              (process_pending (fun _ => some 1)
                ⟨[], [], [("k", .closed), ("j", .empty)], 0⟩).cache) :=
  C3_poll_removes_exactly_resolved (fun _ => some 1)
    ⟨[], [], [("k", .closed), ("j", .empty)], 0⟩ (by simp)

/-- C9: in bounded mode the download loop fully completes each request
before dequeuing the next: from any starting queue every reachable trace is
the fully serialized handling of a prefix of the queue, possibly followed
by the start of the next request (never two interleaved requests); with two
queued requests, whenever the second one has started, the trace begins with
the first request's start and finish followed by the second's start.  In
unbounded mode an execution exists in which both requests have started (run
concurrently) with neither finished. -/
theorem C9_bounded_serializes (a b : Key) (hab : a ≠ b) :
    (∀ (reqs : List Key) (s : DLState), DLReach true ⟨reqs, [], []⟩ s →
        ∃ done rest, reqs = done ++ rest ∧
          (s.trace = fullTrace done ∨
            ∃ u rest', rest = u :: rest' ∧
              s.trace = fullTrace done ++ [Ev.start u])) ∧
    (∀ s : DLState, DLReach true ⟨[a, b], [], []⟩ s →
        Ev.start b ∈ s.trace →
        s.trace.take 3 = [.start a, .finish a, .start b]) ∧
    DLReach false ⟨[a, b], [], []⟩
      ⟨[], [(a, true), (b, true)], [.start a, .start b]⟩ := by
  refine ⟨?_, ?_, ?_⟩
  · intro reqs s hreach
    rcases BoundedInv_reach hreach with ⟨done, rest, hsplit, hcase⟩
    rcases hcase with ⟨_, _, htr⟩ | ⟨u, rest', hrest, _, hsub⟩
    · exact ⟨done, rest, hsplit, Or.inl htr⟩
    · rcases hsub with ⟨_, htr⟩ | ⟨_, htr⟩
      · exact ⟨done, rest, hsplit, Or.inl htr⟩
      · exact ⟨done, rest, hsplit, Or.inr ⟨u, rest', hrest, htr⟩⟩
  · intro s hreach hmem
    rcases bounded_two_trace hreach with h | h | h | h | h <;>
      rw [h] at hmem ⊢
    · simp at hmem
    · simp only [List.mem_singleton, Ev.start.injEq] at hmem
      exact absurd hmem.symm hab
    · simp only [List.mem_cons, List.mem_singleton] at hmem
      rcases hmem with hmem | hmem
      · simp only [Ev.start.injEq] at hmem
        exact absurd hmem.symm hab
      · rcases hmem with hmem | hmem
        · exact Ev.noConfusion hmem
        · simp at hmem
    · rfl
    · rfl
  · exact Relation.ReflTransGen.head
      (DLStep.recv a [b] [] [] (fun _ => rfl))
      (Relation.ReflTransGen.head (DLStep.start [b] [] [] a [])
        (Relation.ReflTransGen.head
          (DLStep.recv b [] [(a, true)] [Ev.start a] (fun h => nomatch h))
          (Relation.ReflTransGen.head
            (DLStep.start [] [(a, true)] [] b [Ev.start a])
            Relation.ReflTransGen.refl)))

theorem C9_witness :
    ((DLState.mk [] [("B", true)]
        [Ev.start "A", Ev.finish "A", Ev.start "B"]).trace.take 3
      = [Ev.start "A", Ev.finish "A", Ev.start "B"]) ∧
    DLReach false ⟨["A", "B"], [], []⟩
      ⟨[], [("A", true), ("B", true)], [.start "A", .start "B"]⟩ := by
  have h := C9_bounded_serializes "A" "B" (by decide)
  refine ⟨?_, h.2.2⟩
  have hreach : DLReach true ⟨["A", "B"], [], []⟩
      ⟨[], [("B", true)], [.start "A", .finish "A", .start "B"]⟩ :=
    Relation.ReflTransGen.head
      (DLStep.recv "A" ["B"] [] [] (fun _ => rfl))
      (Relation.ReflTransGen.head (DLStep.start ["B"] [] [] "A" [])
        (Relation.ReflTransGen.head
          (DLStep.finish ["B"] [] [] "A" [Ev.start "A"])
          (Relation.ReflTransGen.head
            (DLStep.recv "B" [] [] [Ev.start "A", Ev.finish "A"]
              (fun _ => rfl))
            (Relation.ReflTransGen.head
              (DLStep.start [] [] [] "B" [Ev.start "A", Ev.finish "A"])
              Relation.ReflTransGen.refl))))
  exact h.2.1 ⟨[], [("B", true)], [.start "A", .finish "A", .start "B"]⟩
    hreach (by simp)

end NowPlaying
